import Mathlib

/-!
Verification development for the faculty-allocation tool (`app.py`).

The program reads a table of students (identity columns, a `CGPA` merit
column, then one faculty column per faculty holding integer preference
ranks), sorts students by merit, allocates students to faculties in rounds
of `n` (one allocation per faculty per round), and tallies how many
students placed each faculty at each preference position.

We shallow-embed the pandas `DataFrame` as a list of column labels plus a
list of rows of cells.  A cell is either a number (anything
numeric-parsable is materialized as `Cell.num` by the CSV ingestion),
a non-numeric string, or `Cell.nan` (missing / NaN).
-/

/-- A single table cell.  `num` covers every numeric-parsable value
(ints and floats from `pd.read_csv`), `str` a non-numeric string,
`nan` a missing value / NaN. -/
inductive Cell where
  | num (q : ℚ)
  | str (s : String)
  | nan
deriving DecidableEq, Repr

/-- One table row: the cells in column order. -/
abbrev Row := List Cell

/-- The pandas DataFrame: ordered column labels and rows of cells.
(`df.WF` below states the pandas rectangularity invariant.) -/
structure DF where
  cols : List String
  rows : List Row
deriving DecidableEq, Repr

/-- Pandas invariant: every row has exactly one cell per column. -/
def DF.WF (df : DF) : Prop := ∀ r ∈ df.rows, r.length = df.cols.length

/-- Models per-cell `pd.to_numeric(╌, errors=coerce)`: numbers pass
through, everything else becomes missing (`none`, i.e. NaN). -/
def toNumeric : Cell → Option ℚ
  | Cell.num q => some q
  | _ => none

/-- Models Python `int(cell)`: succeeds on numeric cells, truncating
toward zero (as `int` does on floats); raises (= `none`) on non-numeric
or missing values. -/
def toInt : Cell → Option ℤ
  | Cell.num q => some (q.num.tdiv q.den)
  | _ => none

/-- Cell lookup by column label: the cell at the first index of `c` in
`cols` (NaN when absent / out of range). -/
def cellAt (cols : List String) (row : Row) (c : String) : Cell :=
  row.getD (cols.indexOf c) Cell.nan

/-- Python's `col.strip().lower()` normalization used for header search
(whitespace stripped at both ends, basic-latin lowercasing), written
over the character list. -/
def normHeader (s : String) : String :=
  String.mk
    ((((s.data.dropWhile Char.isWhitespace).reverse.dropWhile
        Char.isWhitespace).reverse).map Char.toLower)

/-- `find_header_case_insensitive(df_cols, target)`: first column whose
stripped lower-cased name equals the stripped lower-cased target. -/
def find_header_case_insensitive (cols : List String) (target : String) : Option String :=
  cols.find? (fun col => normHeader col == normHeader target)

/-- `build_faculty_list(df, cgpa_col_name)`: all columns after the CGPA
column in CSV order. -/
def build_faculty_list (cols : List String) (cgpaCol : String) : List String :=
  cols.drop (cols.indexOf cgpaCol + 1)

/-- Increment the count at preference position `v` (1-based), as
`pref_df.at[fac, Count Pref v] += 1` does. -/
def bumpAt (counts : List ℕ) (v : ℕ) : List ℕ :=
  counts.set (v - 1) (counts.getD (v - 1) 0 + 1)

/-- One faculty-cell step of `compute_fac_pref_counts`: parse the
student's cell for `fac` with `int(╌)`; on success, if the value is in
`1..n`, bump that faculty's count at that position; otherwise skip. -/
def tallyFac (cols : List String) (n : ℕ) (row : Row)
    (table : List (String × List ℕ)) (fac : String) : List (String × List ℕ) :=
  match toInt (cellAt cols row fac) with
  | some v =>
      if 1 ≤ v ∧ v ≤ (n : ℤ) then
        table.map (fun p => if p.1 = fac then (p.1, bumpAt p.2 v.toNat) else p)
      else table
  | none => table

/-- One student row of `compute_fac_pref_counts`: fold over the faculty
columns. -/
def tallyRow (cols : List String) (facultyCols : List String) (n : ℕ)
    (table : List (String × List ℕ)) (row : Row) : List (String × List ℕ) :=
  facultyCols.foldl (tallyFac cols n row) table

/-- `compute_fac_pref_counts(df, faculty_cols)`: start every faculty at
`n` zero counts, then for each student and faculty bump the count of the
parsed in-range rank.  Result: one `(faculty, counts 1..n)` row per
faculty column. -/
def compute_fac_pref_counts (df : DF) (facultyCols : List String) :
    List (String × List ℕ) :=
  df.rows.foldl (tallyRow df.cols facultyCols facultyCols.length)
    (facultyCols.map (fun fac => (fac, List.replicate facultyCols.length 0)))

/-- The scan over preference ranks `1..n`: for each rank in increasing
order, the first faculty column whose cell parses to exactly that rank
and which is still available; the whole scan returns the first hit. -/
def scanRanks (cols : List String) (facultyCols : List String)
    (available : List String) (row : Row) (n : ℕ) : Option String :=
  (List.range' 1 n).findSome? (fun (rank : ℕ) =>
    facultyCols.find? (fun fac =>
      decide (toInt (cellAt cols row fac) = some ((rank : ℤ))) && available.contains fac))

/-- The per-student assignment of `allocate_rounds`: the rank scan,
then — when it fails and `available` is non-empty — the positionally
first faculty column still available; `none` when `available` is empty. -/
def pickAssigned (cols : List String) (facultyCols : List String)
    (available : List String) (row : Row) : Option String :=
  match scanRanks cols facultyCols available row facultyCols.length with
  | some fac => some fac
  | none =>
      if available.isEmpty then none
      else facultyCols.find? (fun fac => available.contains fac)

/-- The output row appended for each student: `student.get(col, "")` for
the case-insensitively located identity and CGPA columns, plus the
assignment (`none` rendered as the empty string in the CSV). -/
structure AllocRecord where
  roll : Cell
  name : Cell
  email : Cell
  cgpa : Cell
  allocated : Option String
deriving DecidableEq, Repr

/-- `student.get(find_header_case_insensitive(cols, target), "")`:
the cell when the header is found, the default `""` otherwise. -/
def seriesGet (cols : List String) (row : Row) (target : String) : Cell :=
  match find_header_case_insensitive cols target with
  | some c => cellAt cols row c
  | none => Cell.str ""

/-- Build one `AllocRecord` for a student. -/
def mkRecord (cols : List String) (row : Row) (assigned : Option String) : AllocRecord :=
  { roll := seriesGet cols row "Roll"
    name := seriesGet cols row "Name"
    email := seriesGet cols row "Email"
    cgpa := seriesGet cols row "CGPA"
    allocated := assigned }

/-- Process the students of one round against the mutable `available`
set: assign each student in order, removing the assignment from
`available` when it is a member (it always is when present). -/
def allocChunk (cols : List String) (facultyCols : List String)
    (available : List String) : List Row → List AllocRecord
  | [] => []
  | row :: rest =>
      let assigned := pickAssigned cols facultyCols available row
      let available' :=
        match assigned with
        | some fac => if available.contains fac then available.erase fac else available
        | none => available
      mkRecord cols row assigned :: allocChunk cols facultyCols available' rest

/-- Split the sorted rows into consecutive chunks of `n` (`range(0,
total, n)` slicing); `fuel` bounds the recursion by the list length. -/
def chunksGo (n : ℕ) : ℕ → List Row → List (List Row)
  | 0, _ => []
  | _ + 1, [] => []
  | fuel + 1, r :: rs => ((r :: rs).take n) :: chunksGo n fuel ((r :: rs).drop n)

/-- The rounds: consecutive chunks of `n` students in sorted order. -/
def chunksOf (n : ℕ) (l : List Row) : List (List Row) := chunksGo n l.length l

/-- `allocate_rounds(df_sorted, faculty_cols)`: raises when there are no
faculty columns; otherwise processes each chunk of `n` students with a
fresh `available = set(faculty_cols)` and concatenates the per-round
output rows. -/
def allocate_rounds (dfSorted : DF) (facultyCols : List String) :
    Except String (List AllocRecord) :=
  if facultyCols.length = 0 then
    Except.error "No faculty columns detected."
  else
    Except.ok (((chunksOf facultyCols.length dfSorted.rows).map
      (allocChunk dfSorted.cols facultyCols facultyCols.dedup)).flatten)

/-- Numeric coercion of one merit cell: `pd.to_numeric(╌, errors=coerce)`
keeps numbers and turns everything else into NaN. -/
def coerceCell (c : Cell) : Cell :=
  match toNumeric c with
  | some q => Cell.num q
  | none => Cell.nan

/-- `df[cgpa_col] = pd.to_numeric(df[cgpa_col], errors=coerce)`:
replace the CGPA column cellwise. -/
def coerceMerit (df : DF) (cgpaCol : String) : DF :=
  { cols := df.cols
    rows := df.rows.map (fun r =>
      r.set (df.cols.indexOf cgpaCol)
        (coerceCell (r.getD (df.cols.indexOf cgpaCol) Cell.nan))) }

/-- Overwrite column `j` of each row with the running index `i, i+1, ╌`. -/
def setIdxCells (j : ℕ) : ℕ → List Row → List Row
  | _, [] => []
  | i, r :: rs => r.set j (Cell.num i) :: setIdxCells j (i + 1) rs

/-- Append a running-index cell `i, i+1, ╌` to each row. -/
def appendIdxCells : ℕ → List Row → List Row
  | _, [] => []
  | i, r :: rs => (r ++ [Cell.num i]) :: appendIdxCells (i + 1) rs

/-- `df["_orig_index"] = range(len(df))`: overwrite the column when it
already exists, otherwise append it as a new last column. -/
def addOrigIndex (df : DF) : DF :=
  if df.cols.contains "_orig_index" then
    { cols := df.cols
      rows := setIdxCells (df.cols.indexOf "_orig_index") 0 df.rows }
  else
    { cols := df.cols ++ ["_orig_index"]
      rows := appendIdxCells 0 df.rows }

/-- The sort key of the CGPA column: the numeric value, `none` for NaN. -/
def meritKey (ci : ℕ) (r : Row) : Option ℚ := toNumeric (r.getD ci Cell.nan)

/-- The tie-break key: the `_orig_index` cell's numeric value. -/
def origKey (oi : ℕ) (r : Row) : ℚ := (toNumeric (r.getD oi Cell.nan)).getD 0

/-- The strict row order realized by `sort_values(by=[cgpa_col,
"_orig_index"], ascending=[False, True], na_position last)`: merit
descending with NaN after every number, ties broken by original
position ascending. -/
def rowBefore (ci oi : ℕ) (a b : Row) : Bool :=
  match meritKey ci a, meritKey ci b with
  | some x, some y =>
      decide (y < x) || (decide (x = y) && decide (origKey oi a < origKey oi b))
  | some _, none => true
  | none, some _ => false
  | none, none => decide (origKey oi a < origKey oi b)

/-- The non-strict counterpart used for sorting: `a` need not come after
`b`. -/
def rowLe (ci oi : ℕ) (a b : Row) : Prop := rowBefore ci oi b a = false

instance (ci oi : ℕ) : DecidableRel (rowLe ci oi) := fun a b =>
  inferInstanceAs (Decidable (rowBefore ci oi b a = false))

/-- The stable sort of the student rows by (merit desc — NaN last,
original position asc).  `kind=mergesort` requests a stable sort;
any stable sort agrees here because the composite key is injective on
the engine's rows (proved below as uniqueness of the sorted order). -/
def sortStudents (ci oi : ℕ) (rows : List Row) : List Row :=
  List.insertionSort (rowLe ci oi) rows

/-- The state of `df` after the two in-place updates of
`process_dataframe`: merit column coerced, `_orig_index` column added. -/
def pipelineDF (df : DF) (cgpaCol : String) : DF :=
  addOrigIndex (coerceMerit df cgpaCol)

/-- `df_sorted`: the mutated frame with its rows stable-sorted by
(merit desc — NaN last, original position asc). -/
def pipelineSorted (df : DF) (cgpaCol : String) : DF :=
  { cols := (pipelineDF df cgpaCol).cols
    rows := sortStudents ((pipelineDF df cgpaCol).cols.indexOf cgpaCol)
      ((pipelineDF df cgpaCol).cols.indexOf "_orig_index")
      (pipelineDF df cgpaCol).rows }

/-- `process_dataframe(df)`: locate CGPA case-insensitively (else raise),
derive the faculty columns (else raise when empty), coerce the merit
column in place, add the `_orig_index` column, stable-sort, tally
preferences over the mutated frame, and allocate over the sorted frame.
Returns the post-processing state of `df` (it is mutated in place in the
source) together with the two output tables. -/
def process_dataframe (df : DF) :
    Except String (DF × List AllocRecord × List (String × List ℕ)) :=
  match find_header_case_insensitive df.cols "CGPA" with
  | none => Except.error "CGPA column not found (case-insensitive search)."
  | some cgpaCol =>
      if build_faculty_list df.cols cgpaCol = [] then
        Except.error "No faculty columns found after CGPA."
      else
        match allocate_rounds (pipelineSorted df cgpaCol)
            (build_faculty_list df.cols cgpaCol) with
        | Except.error e => Except.error e
        | Except.ok allocated =>
            Except.ok (pipelineDF df cgpaCol, allocated,
              compute_fac_pref_counts (pipelineDF df cgpaCol)
                (build_faculty_list df.cols cgpaCol))

/-! ### Helper lemmas: the rank scan and the per-student assignment -/

/-- `findSome?` over `range' s len` returns the value at the smallest
index whose function value is `some`. -/
theorem findSome?_range'_min {β : Type} {f : ℕ → Option β} :
    ∀ {len s : ℕ} {b : β}, (List.range' s len).findSome? f = some b →
      ∃ r, s ≤ r ∧ r < s + len ∧ f r = some b ∧ ∀ j, s ≤ j → j < r → f j = none := by
  intro len
  induction len with
  | zero => intro s b h; simp at h
  | succ m ih =>
      intro s b h
      rw [List.range'_succ] at h
      by_cases hs : (f s).isSome
      · rw [List.findSome?_cons_of_isSome _ hs] at h
        exact ⟨s, Nat.le_refl s, by omega, h, fun j h1 h2 => by omega⟩
      · have hn : f s = none := Option.not_isSome_iff_eq_none.mp hs
        rw [List.findSome?_cons_of_isNone _ (by simp [hn])] at h
        obtain ⟨r, hr1, hr2, hr3, hr4⟩ := ih h
        refine ⟨r, by omega, by omega, hr3, ?_⟩
        intro j hj1 hj2
        rcases Nat.eq_or_lt_of_le hj1 with hj | hj
        · exact hj ▸ hn
        · exact hr4 j hj hj2

/-- A successful assignment is an available faculty column. -/
theorem pickAssigned_mem {cols facultyCols available : List String} {row : Row}
    {f : String} (h : pickAssigned cols facultyCols available row = some f) :
    f ∈ available ∧ f ∈ facultyCols := by
  unfold pickAssigned at h
  cases hscan : scanRanks cols facultyCols available row facultyCols.length with
  | some g =>
      rw [hscan] at h
      cases h
      unfold scanRanks at hscan
      obtain ⟨r, -, -, hr, -⟩ := findSome?_range'_min hscan
      have hp := List.find?_some hr
      have hm := List.mem_of_find?_eq_some hr
      simp only [Bool.and_eq_true, decide_eq_true_eq] at hp
      exact ⟨by simpa using hp.2, hm⟩
  | none =>
      rw [hscan] at h
      by_cases he : available.isEmpty
      · simp [he] at h
      · simp only [he, if_false] at h
        have hp := List.find?_some h
        have hm := List.mem_of_find?_eq_some h
        exact ⟨by simpa using hp, hm⟩

/-- A student processed while `available` is non-empty (and, as always
inside the engine, `available ⊆ faculty_cols`) receives an assignment. -/
theorem pickAssigned_isSome {cols facultyCols available : List String} {row : Row}
    (hav : available ≠ []) (hsub : available ⊆ facultyCols) :
    ∃ f, pickAssigned cols facultyCols available row = some f := by
  unfold pickAssigned
  cases hscan : scanRanks cols facultyCols available row facultyCols.length with
  | some g => exact ⟨g, rfl⟩
  | none =>
      have he : available.isEmpty = false := by
        simp [List.isEmpty_iff, hav]
      obtain ⟨y, hy⟩ := List.exists_mem_of_ne_nil available hav
      have : ∃ x, x ∈ facultyCols ∧ (available.contains x) = true := by
        exact ⟨y, hsub hy, by simpa using hy⟩
      obtain ⟨f, hf⟩ := Option.isSome_iff_exists.mp (List.find?_isSome.mpr this)
      refine ⟨f, ?_⟩
      show (if available.isEmpty = true then none
            else facultyCols.find? (fun fac => available.contains fac)) = some f
      rw [if_neg (by rw [he]; simp)]
      exact hf

/-- A student processed while `available` is empty is left unassigned. -/
theorem pickAssigned_empty (cols facultyCols : List String) (row : Row) :
    pickAssigned cols facultyCols [] row = none := by
  unfold pickAssigned
  cases hscan : scanRanks cols facultyCols [] row facultyCols.length with
  | some g =>
      unfold scanRanks at hscan
      obtain ⟨r, -, -, hr, -⟩ := findSome?_range'_min hscan
      have hp := List.find?_some hr
      simp at hp
  | none => simp

/-! ### Helper lemmas: processing one round -/

/-- One output record per student of the round. -/
theorem length_allocChunk (cols facultyCols : List String) :
    ∀ (available : List String) (chunk : List Row),
      (allocChunk cols facultyCols available chunk).length = chunk.length := by
  intro available chunk
  induction chunk generalizing available with
  | nil => rfl
  | cons row rest ih => simp [allocChunk, ih]

/-- Every student of a round no larger than the available set is
assigned: the defensive empty-`available` branch is unreachable. -/
theorem allocChunk_assigned_isSome (cols facultyCols : List String) :
    ∀ (available : List String) (chunk : List Row),
      available ⊆ facultyCols → chunk.length ≤ available.length →
      ∀ rec ∈ allocChunk cols facultyCols available chunk, rec.allocated.isSome := by
  intro available chunk
  induction chunk generalizing available with
  | nil => intro _ _ rec h; simp [allocChunk] at h
  | cons row rest ih =>
      intro hsub hlen rec hrec
      have hav : available ≠ [] := by
        intro hnil
        rw [hnil] at hlen
        simp at hlen
      obtain ⟨f, hf⟩ := @pickAssigned_isSome cols facultyCols available row hav hsub
      have hfa : f ∈ available := (pickAssigned_mem hf).1
      rw [allocChunk, hf] at hrec
      simp only [List.mem_cons] at hrec
      rcases hrec with hrec | hrec
      · rw [hrec]; simp [mkRecord]
      · have hc : available.contains f = true := by simpa using hfa
        rw [if_pos hc] at hrec
        refine ih (available.erase f) ?_ ?_ rec hrec
        · exact fun x hx => hsub (available.erase_subset f hx)
        · have : (available.erase f).length = available.length - 1 :=
            List.length_erase_of_mem hfa
          simp only [List.length_cons] at hlen
          omega

/-- Unfolding equation for `allocChunk` on a non-empty round. -/
theorem allocChunk_cons (cols facultyCols available : List String) (row : Row)
    (rest : List Row) :
    allocChunk cols facultyCols available (row :: rest) =
      mkRecord cols row (pickAssigned cols facultyCols available row) ::
        allocChunk cols facultyCols
          (match pickAssigned cols facultyCols available row with
           | some fac =>
               if available.contains fac then available.erase fac else available
           | none => available) rest := rfl

/-- The assignment field of an output record is the picked faculty. -/
theorem mkRecord_allocated (cols : List String) (row : Row) (a : Option String) :
    (mkRecord cols row a).allocated = a := rfl

/-- Within one round the assignments are a partial injection: the
assigned faculties are pairwise distinct and all drawn from the round's
initial available set. -/
theorem allocChunk_allocated_nodup (cols facultyCols : List String) :
    ∀ (available : List String) (chunk : List Row), available.Nodup →
      ((allocChunk cols facultyCols available chunk).filterMap AllocRecord.allocated).Nodup ∧
      ∀ f ∈ (allocChunk cols facultyCols available chunk).filterMap AllocRecord.allocated,
        f ∈ available := by
  intro available chunk
  induction chunk generalizing available with
  | nil => intro _; simp [allocChunk]
  | cons row rest ih =>
      intro hnd
      cases hpick : pickAssigned cols facultyCols available row with
      | none =>
          have hstep : allocChunk cols facultyCols available (row :: rest) =
              mkRecord cols row none :: allocChunk cols facultyCols available rest := by
            rw [allocChunk_cons, hpick]
          rw [hstep, List.filterMap_cons, mkRecord_allocated]
          simpa using ih available hnd
      | some f =>
          have hfa : f ∈ available := (pickAssigned_mem hpick).1
          have hc : available.contains f = true := by simpa using hfa
          have hstep : allocChunk cols facultyCols available (row :: rest) =
              mkRecord cols row (some f) ::
                allocChunk cols facultyCols (available.erase f) rest := by
            rw [allocChunk_cons, hpick]
            show mkRecord cols row (some f) ::
                allocChunk cols facultyCols
                  (if available.contains f = true then available.erase f
                   else available) rest =
              mkRecord cols row (some f) ::
                allocChunk cols facultyCols (available.erase f) rest
            rw [hc, if_pos rfl]
          rw [hstep]
          have hrec := ih (available.erase f) (hnd.erase f)
          have hfne : f ∉ available.erase f := by
            rw [List.Nodup.erase_eq_filter hnd]
            simp
          rw [List.filterMap_cons, mkRecord_allocated]
          constructor
          · refine List.Pairwise.cons ?_ hrec.1
            intro g hg hfg
            exact hfne (hfg ▸ hrec.2 g hg)
          · intro g hg
            rcases List.mem_cons.mp hg with hg | hg
            · exact hg ▸ hfa
            · exact available.erase_subset f (hrec.2 g hg)

/-! ### Helper lemmas: the rounds -/

theorem chunksGo_nil (n : ℕ) : ∀ fuel, chunksGo n fuel [] = []
  | 0 => rfl
  | _ + 1 => rfl

/-- With enough fuel, the chunks concatenate back to the list. -/
theorem chunksGo_flatten (n : ℕ) (hn : 0 < n) :
    ∀ (fuel : ℕ) (l : List Row), l.length ≤ fuel → (chunksGo n fuel l).flatten = l := by
  intro fuel
  induction fuel with
  | zero =>
      intro l hl
      rw [List.length_eq_zero.mp (Nat.le_zero.mp hl)]
      rfl
  | succ m ih =>
      intro l hl
      cases l with
      | nil => rfl
      | cons r rs =>
          have hlen : ((r :: rs).drop n).length ≤ m := by
            rw [List.length_drop]
            simp only [List.length_cons] at hl ⊢
            omega
          calc (chunksGo n (m + 1) (r :: rs)).flatten
              = (r :: rs).take n ++ (chunksGo n m ((r :: rs).drop n)).flatten := rfl
            _ = (r :: rs).take n ++ (r :: rs).drop n := by rw [ih _ hlen]
            _ = r :: rs := List.take_append_drop n (r :: rs)

theorem chunksGo_ne_nil (n : ℕ) {fuel : ℕ} {l : List Row}
    (hl : l ≠ []) (hf : 0 < fuel) : chunksGo n fuel l ≠ [] := by
  cases fuel with
  | zero => omega
  | succ m =>
      cases l with
      | nil => exact absurd rfl hl
      | cons r rs => exact List.cons_ne_nil _ _

/-- Every chunk is a non-empty slice of at most `n` students. -/
theorem chunksGo_mem_length (n : ℕ) (hn : 0 < n) :
    ∀ (fuel : ℕ) (l : List Row), ∀ c ∈ chunksGo n fuel l, c.length ≤ n ∧ c ≠ [] := by
  intro fuel
  induction fuel with
  | zero => intro l c hc; simp [chunksGo] at hc
  | succ m ih =>
      intro l c hc
      cases l with
      | nil => simp [chunksGo] at hc
      | cons r rs =>
          rcases List.mem_cons.mp hc with hc | hc
          · constructor
            · rw [hc, List.length_take]; omega
            · rw [hc]
              intro hnil
              rcases List.take_eq_nil_iff.mp hnil with h | h
              · omega
              · exact List.cons_ne_nil r rs h
          · exact ih _ c hc

/-- Every chunk except possibly the last has exactly `n` students. -/
theorem chunksGo_dropLast_length (n : ℕ) (hn : 0 < n) :
    ∀ (fuel : ℕ) (l : List Row), l.length ≤ fuel →
      ∀ c ∈ (chunksGo n fuel l).dropLast, c.length = n := by
  intro fuel
  induction fuel with
  | zero => intro l hl c hc; simp [chunksGo] at hc
  | succ m ih =>
      intro l hl c hc
      cases l with
      | nil => simp [chunksGo] at hc
      | cons r rs =>
          by_cases hdrop : (r :: rs).drop n = []
          · have : chunksGo n (m + 1) (r :: rs) = [(r :: rs).take n] := by
              show (r :: rs).take n :: chunksGo n m ((r :: rs).drop n) = _
              rw [hdrop, chunksGo_nil]
            rw [this] at hc
            simp at hc
          · have hm : 0 < m := by
              have h1 : ((r :: rs).drop n).length = (r :: rs).length - n :=
                List.length_drop n (r :: rs)
              have h2 : ((r :: rs).drop n).length ≠ 0 := by
                intro h0
                exact hdrop (List.length_eq_zero.mp h0)
              simp only [List.length_cons] at hl h1
              omega
            have hne : chunksGo n m ((r :: rs).drop n) ≠ [] :=
              chunksGo_ne_nil n hdrop hm
            have hstep : chunksGo n (m + 1) (r :: rs) =
                (r :: rs).take n :: chunksGo n m ((r :: rs).drop n) := rfl
            rw [hstep, List.dropLast_cons_of_ne_nil hne] at hc
            rcases List.mem_cons.mp hc with hc | hc
            · have hlt : n < (r :: rs).length := by
                by_contra hge
                exact hdrop (List.drop_eq_nil_iff.mpr (by omega))
              rw [hc, List.length_take]
              omega
            · refine ih ((r :: rs).drop n) ?_ c hc
              rw [List.length_drop]
              simp only [List.length_cons] at hl ⊢
              omega

/-- `allocate_rounds` on a non-empty faculty list succeeds and returns
the concatenated per-round outputs. -/
theorem allocate_rounds_eq (dfSorted : DF) (facultyCols : List String)
    (h : facultyCols ≠ []) :
    allocate_rounds dfSorted facultyCols =
      Except.ok (((chunksOf facultyCols.length dfSorted.rows).map
        (allocChunk dfSorted.cols facultyCols facultyCols.dedup)).flatten) := by
  unfold allocate_rounds
  rw [if_neg (fun hc => h (List.length_eq_zero.mp hc))]

theorem allocate_rounds_error (dfSorted : DF) :
    allocate_rounds dfSorted [] = Except.error "No faculty columns detected." := rfl

/-- The engine emits exactly one record per chunked student. -/
theorem length_flatten_allocChunk (cols facultyCols available : List String) :
    ∀ (cs : List (List Row)),
      ((cs.map (allocChunk cols facultyCols available)).flatten).length =
        cs.flatten.length := by
  intro cs
  induction cs with
  | nil => rfl
  | cons c cs ih =>
      simp only [List.map_cons, List.flatten_cons, List.length_append, ih,
        length_allocChunk]

/-! ### Helper lemmas: the sort order -/

/-- Encode the composite pandas sort key as a lexicographic triple:
(NaN tag, negated merit, original position), all ascending. -/
def sortKey (ci oi : ℕ) (r : Row) : ℚ ×ₗ ℚ ×ₗ ℚ :=
  toLex (match meritKey ci r with
    | some q => ((0 : ℚ), toLex (-q, origKey oi r))
    | none => ((1 : ℚ), toLex ((0 : ℚ), origKey oi r)))

/-- The comparison `rowBefore` is exactly the strict order of the
encoded keys. -/
theorem rowBefore_iff_lt {ci oi : ℕ} {a b : Row} :
    rowBefore ci oi a b = true ↔ sortKey ci oi a < sortKey ci oi b := by
  cases hma : meritKey ci a with
  | some x =>
      cases hmb : meritKey ci b with
      | some y =>
          simp [rowBefore, sortKey, hma, hmb, Prod.Lex.lt_iff]
      | none =>
          simp [rowBefore, sortKey, hma, hmb, Prod.Lex.lt_iff]
  | none =>
      cases hmb : meritKey ci b with
      | some y =>
          simp [rowBefore, sortKey, hma, hmb, Prod.Lex.lt_iff]
      | none =>
          simp [rowBefore, sortKey, hma, hmb, Prod.Lex.lt_iff]

/-- The sorting relation is the non-strict key order. -/
theorem rowLe_iff {ci oi : ℕ} {a b : Row} :
    rowLe ci oi a b ↔ sortKey ci oi a ≤ sortKey ci oi b := by
  unfold rowLe
  rw [← not_lt, ← rowBefore_iff_lt]
  simp

instance rowLe_total (ci oi : ℕ) : IsTotal Row (rowLe ci oi) :=
  ⟨fun a b => by rw [rowLe_iff, rowLe_iff]; exact le_total _ _⟩

instance rowLe_trans (ci oi : ℕ) : IsTrans Row (rowLe ci oi) :=
  ⟨fun a b c hab hbc => by
    rw [rowLe_iff] at hab hbc ⊢
    exact le_trans hab hbc⟩

instance rowBefore_antisymm (ci oi : ℕ) :
    IsAntisymm Row (fun a b => rowBefore ci oi a b = true) :=
  ⟨fun a b hab hba => by
    rw [rowBefore_iff_lt] at hab hba
    exact absurd hba (lt_asymm hab)⟩

/-- Equal keys force equal original-position components. -/
theorem sortKey_eq_origKey {ci oi : ℕ} {a b : Row}
    (h : sortKey ci oi a = sortKey ci oi b) : origKey oi a = origKey oi b := by
  unfold sortKey at h
  cases hma : meritKey ci a with
  | some x =>
      cases hmb : meritKey ci b with
      | some y =>
          rw [hma, hmb, toLex_inj] at h
          have h2 := congrArg Prod.snd h
          simpa [toLex_inj] using congrArg Prod.snd (toLex_inj.mp h2)
      | none =>
          rw [hma, hmb, toLex_inj] at h
          have h1 := congrArg Prod.fst h
          norm_num at h1
  | none =>
      cases hmb : meritKey ci b with
      | some y =>
          rw [hma, hmb, toLex_inj] at h
          have h1 := congrArg Prod.fst h
          norm_num at h1
      | none =>
          rw [hma, hmb, toLex_inj] at h
          have h2 := congrArg Prod.snd h
          simpa [toLex_inj] using congrArg Prod.snd (toLex_inj.mp h2)

/-- The sort output is ordered by the non-strict key order. -/
theorem sortStudents_sorted (ci oi : ℕ) (rows : List Row) :
    List.Sorted (rowLe ci oi) (sortStudents ci oi rows) :=
  List.sorted_insertionSort (rowLe ci oi) rows

/-- The sort output is a permutation of the input rows. -/
theorem sortStudents_perm (ci oi : ℕ) (rows : List Row) :
    List.Perm (sortStudents ci oi rows) rows :=
  List.perm_insertionSort (rowLe ci oi) rows

/-- Sorted plus pairwise-distinct keys yields the strict order. -/
theorem pairwise_strict_of_sorted {ci oi : ℕ} {l : List Row}
    (hs : List.Sorted (rowLe ci oi) l)
    (hd : l.Pairwise (fun a b => sortKey ci oi a ≠ sortKey ci oi b)) :
    l.Pairwise (fun a b => rowBefore ci oi a b = true) := by
  refine List.Pairwise.imp₂ ?_ hs hd
  intro a b hle hne
  rw [rowLe_iff] at hle
  rw [rowBefore_iff_lt]
  exact lt_of_le_of_ne hle hne

/-! ### Helper lemmas: the original-position column -/

/-- `getD` at the prefix length reads the appended cell. -/
theorem getD_append_length (r : Row) (v : Cell) :
    (r ++ [v]).getD r.length Cell.nan = v := by
  induction r with
  | nil => rfl
  | cons c cs ih => simp [ih]

/-- Every row of `appendIdxCells k rows` carries an index at least `k`
in its `_orig_index` cell. -/
theorem appendIdxCells_origKey {oi : ℕ} :
    ∀ (rows : List Row) (k : ℕ), (∀ r ∈ rows, r.length = oi) →
      ∀ r' ∈ appendIdxCells k rows, ∃ j : ℕ, k ≤ j ∧ origKey oi r' = (j : ℚ) := by
  intro rows
  induction rows with
  | nil => intro k h r' hr'; simp [appendIdxCells] at hr'
  | cons r rs ih =>
      intro k h r' hr'
      rcases List.mem_cons.mp hr' with hr' | hr'
      · refine ⟨k, le_refl k, ?_⟩
        rw [hr']
        unfold origKey
        have hlen : r.length = oi := h r (by simp)
        rw [← hlen, getD_append_length]
        rfl
      · obtain ⟨j, hj1, hj2⟩ :=
          ih (k + 1) (fun r hr => h r (by simp [hr])) r' hr'
        exact ⟨j, by omega, hj2⟩

/-- The `_orig_index` cells of `appendIdxCells` are pairwise distinct. -/
theorem appendIdxCells_pairwise {oi : ℕ} :
    ∀ (rows : List Row) (k : ℕ), (∀ r ∈ rows, r.length = oi) →
      (appendIdxCells k rows).Pairwise (fun a b => origKey oi a ≠ origKey oi b) := by
  intro rows
  induction rows with
  | nil => intro k h; exact List.Pairwise.nil
  | cons r rs ih =>
      intro k h
      refine List.Pairwise.cons ?_ (ih (k + 1) (fun r hr => h r (by simp [hr])))
      intro b hb
      obtain ⟨j, hj1, hj2⟩ :=
        appendIdxCells_origKey rs (k + 1) (fun r hr => h r (by simp [hr])) b hb
      have hk : origKey oi (r ++ [Cell.num (k : ℚ)]) = (k : ℚ) := by
        have hlen : r.length = oi := h r (by simp)
        unfold origKey
        rw [← hlen, getD_append_length]
        rfl
      rw [hk, hj2]
      intro heq
      have : k = j := by exact_mod_cast heq
      omega

/-- First index of an element appended to a list not containing it. -/
theorem indexOf_append_self (x : String) :
    ∀ (l : List String), x ∉ l → (l ++ [x]).indexOf x = l.length := by
  intro l
  induction l with
  | nil => simp
  | cons a l' ih =>
      intro h
      have hne : a ≠ x := fun hax => h (by simp [hax])
      rw [List.cons_append, List.indexOf_cons_ne _ hne,
        ih (fun hx => h (by simp [hx]))]
      rfl

/-- With `_orig_index` fresh, the mutated frame appends the index
column. -/
theorem pipelineDF_eq (df : DF) (c : String) (horig : "_orig_index" ∉ df.cols) :
    pipelineDF df c =
      { cols := df.cols ++ ["_orig_index"]
        rows := appendIdxCells 0 (coerceMerit df c).rows } := by
  unfold pipelineDF addOrigIndex
  rw [if_neg (by simp [coerceMerit, horig])]
  rfl

/-- Coercing the merit column preserves row lengths. -/
theorem coerceMerit_row_length (df : DF) (c : String) (hwf : df.WF) :
    ∀ r ∈ (coerceMerit df c).rows, r.length = df.cols.length := by
  intro r hr
  simp only [coerceMerit, List.mem_map] at hr
  obtain ⟨r₀, hr₀, rfl⟩ := hr
  rw [List.length_set]
  exact hwf r₀ hr₀

/-! ### Helper lemmas: the pipeline -/

/-- `process_dataframe` on an accepted frame: the success equation. -/
theorem process_dataframe_eq (df : DF) (c : String)
    (hc : find_header_case_insensitive df.cols "CGPA" = some c)
    (hfc : build_faculty_list df.cols c ≠ []) :
    process_dataframe df = Except.ok (pipelineDF df c,
      ((chunksOf (build_faculty_list df.cols c).length (pipelineSorted df c).rows).map
        (allocChunk (pipelineSorted df c).cols (build_faculty_list df.cols c)
          (build_faculty_list df.cols c).dedup)).flatten,
      compute_fac_pref_counts (pipelineDF df c) (build_faculty_list df.cols c)) := by
  unfold process_dataframe
  rw [hc]
  simp only [if_neg hfc, allocate_rounds_eq _ _ hfc]

/-- No merit column: the run aborts with the schema message. -/
theorem process_dataframe_error_nocgpa (df : DF)
    (hc : find_header_case_insensitive df.cols "CGPA" = none) :
    process_dataframe df =
      Except.error "CGPA column not found (case-insensitive search)." := by
  unfold process_dataframe
  rw [hc]

/-- No faculty columns after the merit column: the run aborts. -/
theorem process_dataframe_error_nofac (df : DF) (c : String)
    (hc : find_header_case_insensitive df.cols "CGPA" = some c)
    (hfc : build_faculty_list df.cols c = []) :
    process_dataframe df =
      Except.error "No faculty columns found after CGPA." := by
  unfold process_dataframe
  rw [hc]
  simp only [if_pos hfc]

/-! ### Helper lemmas: the preference tally -/

/-- The effect of one student row on one faculty's count list. -/
def updRow (cols : List String) (n : ℕ) (g : String) (row : Row) (cs : List ℕ) : List ℕ :=
  match toInt (cellAt cols row g) with
  | some v => if 1 ≤ v ∧ v ≤ (n : ℤ) then bumpAt cs v.toNat else cs
  | none => cs

theorem updRow_some_in {cols : List String} {n : ℕ} {g : String} {row : Row}
    (cs : List ℕ) {v : ℤ} (htv : toInt (cellAt cols row g) = some v)
    (hv : 1 ≤ v ∧ v ≤ (n : ℤ)) :
    updRow cols n g row cs = bumpAt cs v.toNat := by
  unfold updRow
  rw [htv]
  exact if_pos hv

theorem updRow_some_out {cols : List String} {n : ℕ} {g : String} {row : Row}
    (cs : List ℕ) {v : ℤ} (htv : toInt (cellAt cols row g) = some v)
    (hv : ¬(1 ≤ v ∧ v ≤ (n : ℤ))) :
    updRow cols n g row cs = cs := by
  unfold updRow
  rw [htv]
  exact if_neg hv

theorem updRow_none {cols : List String} {n : ℕ} {g : String} {row : Row}
    (cs : List ℕ) (htv : toInt (cellAt cols row g) = none) :
    updRow cols n g row cs = cs := by
  unfold updRow
  rw [htv]

theorem updRow_length (cols : List String) (n : ℕ) (g : String) (row : Row)
    (cs : List ℕ) : (updRow cols n g row cs).length = cs.length := by
  cases htv : toInt (cellAt cols row g) with
  | none => rw [updRow_none cs htv]
  | some v =>
      by_cases h : 1 ≤ v ∧ v ≤ (n : ℤ)
      · rw [updRow_some_in cs htv h]
        unfold bumpAt
        exact List.length_set _ _ _
      · rw [updRow_some_out cs htv h]

/-- One `tallyFac` step keeps the table in keyed-map form. -/
theorem tallyFac_map (cols : List String) (n : ℕ) (row : Row) (fac : String)
    (base : List String) (F : String → List ℕ) :
    tallyFac cols n row (base.map (fun g => (g, F g))) fac =
      base.map (fun g => (g, if g = fac then updRow cols n g row (F g) else F g)) := by
  have hstep : ∀ table : List (String × List ℕ),
      tallyFac cols n row table fac =
        match toInt (cellAt cols row fac) with
        | some v =>
            if 1 ≤ v ∧ v ≤ (n : ℤ) then
              table.map (fun p => if p.1 = fac then (p.1, bumpAt p.2 v.toNat) else p)
            else table
        | none => table := fun _ => rfl
  rw [hstep]
  cases htv : toInt (cellAt cols row fac) with
  | none =>
      refine (List.map_congr_left ?_).symm
      intro g hg
      by_cases hgf : g = fac
      · subst hgf
        rw [if_pos rfl, updRow_none _ htv]
      · rw [if_neg hgf]
  | some v =>
      show (if 1 ≤ v ∧ v ≤ (n : ℤ) then
          (base.map (fun g => (g, F g))).map
            (fun p => if p.1 = fac then (p.1, bumpAt p.2 v.toNat) else p)
        else base.map (fun g => (g, F g))) =
        base.map (fun g => (g, if g = fac then updRow cols n g row (F g) else F g))
      by_cases hv : 1 ≤ v ∧ v ≤ (n : ℤ)
      · rw [if_pos hv, List.map_map]
        refine List.map_congr_left ?_
        intro g hg
        by_cases hgf : g = fac
        · subst hgf
          rw [if_pos rfl, updRow_some_in _ htv hv]
          simp
        · simp [hgf]
      · rw [if_neg hv]
        refine (List.map_congr_left ?_).symm
        intro g hg
        by_cases hgf : g = fac
        · subst hgf
          rw [if_pos rfl, updRow_some_out _ htv hv]
        · rw [if_neg hgf]

/-- Folding `tallyFac` over distinct faculties updates each key once. -/
theorem foldl_tallyFac_map (cols : List String) (n : ℕ) (row : Row)
    (base : List String) :
    ∀ (facs : List String) (F : String → List ℕ), facs.Nodup →
      facs.foldl (tallyFac cols n row) (base.map (fun g => (g, F g))) =
        base.map (fun g => (g, if g ∈ facs then updRow cols n g row (F g) else F g)) := by
  intro facs
  induction facs with
  | nil => intro F _; simp
  | cons fac rest ih =>
      intro F hnd
      rw [List.foldl_cons, tallyFac_map,
        ih (fun g => if g = fac then updRow cols n g row (F g) else F g)
          (List.nodup_cons.mp hnd).2]
      refine List.map_congr_left ?_
      intro g hg
      by_cases h1 : g ∈ rest
      · have hgfac : g ≠ fac := fun he => (List.nodup_cons.mp hnd).1 (he ▸ h1)
        simp [h1, hgfac]
      · by_cases h2 : g = fac
        · subst h2
          simp [h1]
        · simp [h1, h2]

/-- One full `tallyRow` pass over a keyed-map table. -/
theorem tallyRow_eq (cols : List String) (n : ℕ) (row : Row)
    (fcs : List String) (hnd : fcs.Nodup) (F : String → List ℕ) :
    tallyRow cols fcs n (fcs.map (fun g => (g, F g))) row =
      fcs.map (fun g => (g, updRow cols n g row (F g))) := by
  unfold tallyRow
  rw [foldl_tallyFac_map cols n row fcs fcs F hnd]
  exact List.map_congr_left (fun g hg => by simp [hg])

/-- Folding rows keeps the table keyed, with each faculty's counts the
fold of its own per-row updates. -/
theorem foldl_tallyRow_map (cols : List String) (fcs : List String)
    (hnd : fcs.Nodup) :
    ∀ (rows : List Row) (F : String → List ℕ),
      rows.foldl (tallyRow cols fcs fcs.length) (fcs.map (fun g => (g, F g))) =
        fcs.map (fun g => (g, rows.foldl
          (fun cs row => updRow cols fcs.length g row cs) (F g))) := by
  intro rows
  induction rows with
  | nil => intro F; rfl
  | cons row rest ih =>
      intro F
      rw [List.foldl_cons, tallyRow_eq cols fcs.length row fcs hnd F, ih]
      rfl

/-- Closed form of `compute_fac_pref_counts` for distinct faculties. -/
theorem compute_fac_pref_counts_closed (df : DF) (fcs : List String)
    (hnd : fcs.Nodup) :
    compute_fac_pref_counts df fcs =
      fcs.map (fun g => (g, df.rows.foldl
        (fun cs row => updRow df.cols fcs.length g row cs)
        (List.replicate fcs.length 0))) := by
  unfold compute_fac_pref_counts
  exact foldl_tallyRow_map df.cols fcs hnd df.rows (fun _ => List.replicate fcs.length 0)

theorem getD_set {α : Type} (x d : α) :
    ∀ (cs : List α) (i j : ℕ),
      (cs.set i x).getD j d = if i = j ∧ i < cs.length then x else cs.getD j d := by
  intro cs
  induction cs with
  | nil => intro i j; simp
  | cons c cs ih =>
      intro i j
      cases i with
      | zero =>
          cases j with
          | zero => simp
          | succ j' => simp
      | succ i' =>
          cases j with
          | zero => simp
          | succ j' =>
              simp only [List.set_cons_succ, List.getD_cons_succ, List.length_cons,
                ih i' j']
              by_cases h : i' = j' ∧ i' < cs.length
              · rw [if_pos h, if_pos (by omega)]
              · rw [if_neg h, if_neg (by omega)]

theorem sum_set_getD :
    ∀ (cs : List ℕ) (i : ℕ), i < cs.length →
      (cs.set i (cs.getD i 0 + 1)).sum = cs.sum + 1 := by
  intro cs
  induction cs with
  | nil => intro i h; simp at h
  | cons c cs ih =>
      intro i hi
      cases i with
      | zero => simp [Nat.add_assoc, Nat.add_comm, Nat.add_left_comm]
      | succ i' =>
          simp only [List.set_cons_succ, List.getD_cons_succ, List.sum_cons]
          rw [ih i' (by simpa using hi)]
          omega

/-- The count at position `p` after folding all rows: the initial count
plus the number of rows whose cell for `g` parses to exactly `p`. -/
theorem foldl_updRow_getD (cols : List String) (n : ℕ) (g : String) (p : ℕ)
    (hp1 : 1 ≤ p) (hpn : p ≤ n) :
    ∀ (rows : List Row) (cs : List ℕ), cs.length = n →
      (rows.foldl (fun cs row => updRow cols n g row cs) cs).getD (p - 1) 0 =
        cs.getD (p - 1) 0 +
          rows.countP (fun row => toInt (cellAt cols row g) == some ((p : ℤ))) := by
  intro rows
  induction rows with
  | nil => intro cs h; simp
  | cons row rest ih =>
      intro cs hlen
      rw [List.foldl_cons, List.countP_cons,
        ih (updRow cols n g row cs) (by rw [updRow_length, hlen])]
      have hstep : (updRow cols n g row cs).getD (p - 1) 0 =
          cs.getD (p - 1) 0 +
            (if (toInt (cellAt cols row g) == some ((p : ℤ))) = true
             then 1 else 0) := by
        cases htv : toInt (cellAt cols row g) with
        | none => rw [updRow_none cs htv]; simp
        | some v =>
            by_cases hv : 1 ≤ v ∧ v ≤ (n : ℤ)
            · rw [updRow_some_in cs htv hv]
              unfold bumpAt
              rw [getD_set]
              by_cases hvp : v = (p : ℤ)
              · have h1 : v.toNat - 1 = p - 1 := by omega
                have h2 : v.toNat - 1 < cs.length := by omega
                rw [if_pos ⟨h1, h2⟩, h1]
                simp [hvp]
              · rw [if_neg (by omega)]
                have hne : (some v == some ((p : ℤ))) = false := by
                  simp only [beq_eq_false_iff_ne, ne_eq, Option.some.injEq]
                  exact hvp
                rw [hne]
                simp
            · rw [updRow_some_out cs htv hv]
              have hne : (some v == some ((p : ℤ))) = false := by
                simp only [beq_eq_false_iff_ne, ne_eq, Option.some.injEq]
                intro he
                exact hv (by omega)
              rw [hne]
              simp
      rw [hstep]
      omega

/-- The total count after folding all rows: the initial total plus the
number of rows whose cell for `g` parses to an in-range rank. -/
theorem foldl_updRow_sum (cols : List String) (n : ℕ) (g : String) :
    ∀ (rows : List Row) (cs : List ℕ), cs.length = n →
      (rows.foldl (fun cs row => updRow cols n g row cs) cs).sum =
        cs.sum + rows.countP (fun row =>
          match toInt (cellAt cols row g) with
          | some v => decide (1 ≤ v ∧ v ≤ (n : ℤ))
          | none => false) := by
  intro rows
  induction rows with
  | nil => intro cs h; simp
  | cons row rest ih =>
      intro cs hlen
      rw [List.foldl_cons, List.countP_cons,
        ih (updRow cols n g row cs) (by rw [updRow_length, hlen])]
      have hstep : (updRow cols n g row cs).sum =
          cs.sum + (if (match toInt (cellAt cols row g) with
            | some v => decide (1 ≤ v ∧ v ≤ (n : ℤ))
            | none => false) = true then 1 else 0) := by
        cases htv : toInt (cellAt cols row g) with
        | none => rw [updRow_none cs htv]; simp
        | some v =>
            by_cases hv : 1 ≤ v ∧ v ≤ (n : ℤ)
            · rw [updRow_some_in cs htv hv]
              unfold bumpAt
              rw [sum_set_getD cs (v.toNat - 1) (by omega)]
              simp [hv]
            · rw [updRow_some_out cs htv hv]
              simp [hv]
      rw [hstep]
      omega

/-- Row folds keep the length of the count list. -/
theorem foldl_updRow_length (cols : List String) (n : ℕ) (g : String) :
    ∀ (rows : List Row) (cs : List ℕ),
      (rows.foldl (fun cs row => updRow cols n g row cs) cs).length = cs.length := by
  intro rows
  induction rows with
  | nil => intro cs; rfl
  | cons row rest ih =>
      intro cs
      rw [List.foldl_cons, ih, updRow_length]

/-- Looking a key up in a keyed map built over the key list. -/
theorem lookup_map_self {C : String → List ℕ} :
    ∀ (fcs : List String) (f : String), f ∈ fcs →
      (fcs.map (fun g => (g, C g))).lookup f = some (C f) := by
  intro fcs
  induction fcs with
  | nil => intro f hf; simp at hf
  | cons g gs ih =>
      intro f hf
      by_cases hfg : f = g
      · subst hfg; simp [List.lookup]
      · have hmem : f ∈ gs := by
          rcases List.mem_cons.mp hf with h | h
          · exact absurd h hfg
          · exact h
        have hbeq : (f == g) = false := by
          simp [hfg]
        simp only [List.map_cons, List.lookup, hbeq]
        exact ih f hmem

/-! ### Helper lemmas: shape of the mutated frame -/

theorem length_appendIdxCells : ∀ (k : ℕ) (rows : List Row),
    (appendIdxCells k rows).length = rows.length
  | _, [] => rfl
  | k, _ :: rs => by
      simp only [appendIdxCells, List.length_cons, length_appendIdxCells (k + 1) rs]

theorem length_setIdxCells (j : ℕ) : ∀ (k : ℕ) (rows : List Row),
    (setIdxCells j k rows).length = rows.length
  | _, [] => rfl
  | k, _ :: rs => by
      simp only [setIdxCells, List.length_cons, length_setIdxCells j (k + 1) rs]

/-- Processing does not change the number of rows. -/
theorem pipelineDF_rows_length (df : DF) (c : String) :
    (pipelineDF df c).rows.length = df.rows.length := by
  unfold pipelineDF addOrigIndex
  by_cases h : (coerceMerit df c).cols.contains "_orig_index" = true
  · rw [if_pos h]
    show (setIdxCells _ 0 (coerceMerit df c).rows).length = _
    rw [length_setIdxCells]
    simp [coerceMerit]
  · rw [if_neg h]
    show (appendIdxCells 0 (coerceMerit df c).rows).length = _
    rw [length_appendIdxCells]
    simp [coerceMerit]

/-- The processed columns: unchanged, or with `_orig_index` appended. -/
theorem pipelineDF_cols (df : DF) (c : String) :
    (pipelineDF df c).cols = df.cols ∨
    (pipelineDF df c).cols = df.cols ++ ["_orig_index"] := by
  unfold pipelineDF addOrigIndex
  by_cases h : (coerceMerit df c).cols.contains "_orig_index" = true
  · rw [if_pos h]; left; rfl
  · rw [if_neg h]; right; rfl

/-- A failed header search still fails after appending `_orig_index`,
as long as the target does not normalize to `_orig_index`. -/
theorem find_header_append_orig (l : List String) (t : String)
    (h : find_header_case_insensitive l t = none)
    (hne : (normHeader "_orig_index" == normHeader t) = false) :
    find_header_case_insensitive (l ++ ["_orig_index"]) t = none := by
  unfold find_header_case_insensitive at h ⊢
  rw [List.find?_append, h]
  simp [hne]

/-- Every engine output record is built by `mkRecord` over the sorted
frame's columns. -/
theorem allocChunk_mem_mkRecord (cols facultyCols : List String) :
    ∀ (available : List String) (chunk : List Row) (rec : AllocRecord),
      rec ∈ allocChunk cols facultyCols available chunk →
      ∃ (row : Row) (a : Option String), rec = mkRecord cols row a := by
  intro available chunk
  induction chunk generalizing available with
  | nil => intro rec h; simp [allocChunk] at h
  | cons row rest ih =>
      intro rec h
      rw [allocChunk_cons] at h
      rcases List.mem_cons.mp h with h | h
      · exact ⟨row, _, h⟩
      · exact ih _ rec h

/-- Cell extraction from `appendIdxCells`. -/
theorem appendIdxCells_getD :
    ∀ (rows : List Row) (k i : ℕ),
      (appendIdxCells k rows).getD i [] =
        if i < rows.length then rows.getD i [] ++ [Cell.num ((k + i : ℕ) : ℚ)]
        else [] := by
  intro rows
  induction rows with
  | nil => intro k i; simp [appendIdxCells]
  | cons r rs ih =>
      intro k i
      cases i with
      | zero => simp [appendIdxCells]
      | succ i' =>
          show (appendIdxCells (k + 1) rs).getD i' [] = _
          rw [ih (k + 1) i']
          simp only [List.length_cons, List.getD_cons_succ]
          by_cases h : i' < rs.length
          · rw [if_pos h, if_pos (by omega)]
            have harith : k + 1 + i' = k + (i' + 1) := by omega
            rw [harith]
          · rw [if_neg h, if_neg (by omega)]

/-- Cell extraction from the coerced frame. -/
theorem coerceMerit_getD (df : DF) (c : String) {i : ℕ}
    (hi : i < df.rows.length) :
    (coerceMerit df c).rows.getD i [] =
      (df.rows.getD i []).set (df.cols.indexOf c)
        (coerceCell ((df.rows.getD i []).getD (df.cols.indexOf c) Cell.nan)) := by
  unfold coerceMerit
  rw [List.getD_eq_getElem _ _ (by simpa using hi), List.getElem_map,
    List.getD_eq_getElem _ _ hi]

/-! ### Claim theorems -/

/-- C7: processing fails (with a human-readable message) exactly when
the merit column is missing under case-insensitive search or when no
faculty columns follow it; the engine itself fails exactly on an empty
faculty sequence; per-cell data never affects these conditions. -/
theorem c7_error_conditions :
    (∀ df : DF, (∃ out, process_dataframe df = Except.ok out) ↔
      (∃ c, find_header_case_insensitive df.cols "CGPA" = some c ∧
        build_faculty_list df.cols c ≠ [])) ∧
    (∀ df : DF, process_dataframe df =
        Except.error "CGPA column not found (case-insensitive search)." ↔
      find_header_case_insensitive df.cols "CGPA" = none) ∧
    (∀ df : DF, process_dataframe df =
        Except.error "No faculty columns found after CGPA." ↔
      (∃ c, find_header_case_insensitive df.cols "CGPA" = some c ∧
        build_faculty_list df.cols c = [])) ∧
    (∀ (dfSorted : DF) (facultyCols : List String),
      (∃ e, allocate_rounds dfSorted facultyCols = Except.error e) ↔
        facultyCols = []) := by
  refine ⟨fun df => ?_, fun df => ?_, fun df => ?_, fun dfS fcs => ?_⟩
  · cases hc : find_header_case_insensitive df.cols "CGPA" with
    | none =>
        rw [process_dataframe_error_nocgpa df hc]
        constructor
        · rintro ⟨out, hout⟩; cases hout
        · rintro ⟨c, hcc, -⟩
          cases hcc
    | some c =>
        by_cases hfc : build_faculty_list df.cols c = []
        · rw [process_dataframe_error_nofac df c hc hfc]
          constructor
          · rintro ⟨out, hout⟩; cases hout
          · rintro ⟨c', hcc, hne⟩
            cases hcc
            exact absurd hfc hne
        · constructor
          · intro _; exact ⟨c, rfl, hfc⟩
          · intro _; exact ⟨_, process_dataframe_eq df c hc hfc⟩
  · cases hc : find_header_case_insensitive df.cols "CGPA" with
    | none => simp [process_dataframe_error_nocgpa df hc, hc]
    | some c =>
        by_cases hfc : build_faculty_list df.cols c = []
        · rw [process_dataframe_error_nofac df c hc hfc]
          constructor
          · intro h
            injection h with h'
            exact absurd h' (by decide)
          · intro h
            cases h
        · rw [process_dataframe_eq df c hc hfc]
          constructor
          · intro h; cases h
          · intro h
            cases h
  · cases hc : find_header_case_insensitive df.cols "CGPA" with
    | none =>
        rw [process_dataframe_error_nocgpa df hc]
        constructor
        · intro h
          injection h with h'
          exact absurd h' (by decide)
        · rintro ⟨c, hcc, -⟩
          cases hcc
    | some c =>
        by_cases hfc : build_faculty_list df.cols c = []
        · rw [process_dataframe_error_nofac df c hc hfc]
          exact ⟨fun _ => ⟨c, rfl, hfc⟩, fun _ => rfl⟩
        · rw [process_dataframe_eq df c hc hfc]
          constructor
          · intro h; cases h
          · rintro ⟨c', hcc, hemp⟩
            cases hcc
            exact absurd hemp hfc
  · unfold allocate_rounds
    by_cases h : fcs.length = 0
    · rw [if_pos h]
      exact ⟨fun _ => List.length_eq_zero.mp h, fun _ => ⟨_, rfl⟩⟩
    · rw [if_neg h]
      constructor
      · rintro ⟨e, he⟩; cases he
      · intro hnil
        exact absurd (by rw [hnil]; rfl) h

/-- C8: the pipeline is a deterministic pure function of the input
table — two runs on the same input give identical allocation and
preference-count outputs, including ordering among merit ties.  (The
embedding is of code with no randomness or time source.) -/
theorem c8_deterministic_pipeline (df₁ df₂ : DF) (h : df₁ = df₂) :
    process_dataframe df₁ = process_dataframe df₂ := by
  rw [h]

/-- C4: an accepted input yields exactly one allocation record per
input row, whatever the cell contents. -/
theorem c4_output_row_count (df df' : DF) (alloc : List AllocRecord)
    (pref : List (String × List ℕ))
    (hok : process_dataframe df = Except.ok (df', alloc, pref)) :
    alloc.length = df.rows.length := by
  cases hc : find_header_case_insensitive df.cols "CGPA" with
  | none =>
      rw [process_dataframe_error_nocgpa df hc] at hok
      cases hok
  | some c =>
      by_cases hfc : build_faculty_list df.cols c = []
      · rw [process_dataframe_error_nofac df c hc hfc] at hok
        cases hok
      · rw [process_dataframe_eq df c hc hfc] at hok
        injection hok with hok'
        injection hok' with hA hBC
        injection hBC with hB hC
        rw [← hB, length_flatten_allocChunk]
        have hn : 0 < (build_faculty_list df.cols c).length := List.length_pos.mpr hfc
        rw [show (chunksOf (build_faculty_list df.cols c).length
              (pipelineSorted df c).rows).flatten = (pipelineSorted df c).rows from
            chunksGo_flatten _ hn _ _ (le_refl _)]
        show (pipelineSorted df c).rows.length = df.rows.length
        unfold pipelineSorted
        rw [(sortStudents_perm _ _ _).length_eq, pipelineDF_rows_length]

/-- C2: the sorted students are partitioned into consecutive rounds of
exactly `n` (last possibly smaller), the output is the concatenation of
the per-round outputs, and within each round no faculty is assigned to
two students. -/
theorem c2_rounds_partial_injection (dfSorted : DF) (facultyCols : List String)
    (recs : List AllocRecord) (h : facultyCols ≠ [])
    (hok : allocate_rounds dfSorted facultyCols = Except.ok recs) :
    (chunksOf facultyCols.length dfSorted.rows).flatten = dfSorted.rows ∧
    (∀ c ∈ (chunksOf facultyCols.length dfSorted.rows).dropLast,
      c.length = facultyCols.length) ∧
    (∀ c ∈ chunksOf facultyCols.length dfSorted.rows,
      c.length ≤ facultyCols.length ∧ c ≠ []) ∧
    recs = ((chunksOf facultyCols.length dfSorted.rows).map
      (allocChunk dfSorted.cols facultyCols facultyCols.dedup)).flatten ∧
    (∀ c ∈ chunksOf facultyCols.length dfSorted.rows,
      ((allocChunk dfSorted.cols facultyCols facultyCols.dedup c).filterMap
        AllocRecord.allocated).Nodup) := by
  have hn : 0 < facultyCols.length := List.length_pos.mpr h
  rw [allocate_rounds_eq dfSorted facultyCols h] at hok
  injection hok with hok'
  refine ⟨?_, ?_, ?_, hok'.symm, ?_⟩
  · exact chunksGo_flatten _ hn _ _ (le_refl _)
  · exact fun c hc => chunksGo_dropLast_length _ hn _ _ (le_refl _) c hc
  · exact fun c hc => chunksGo_mem_length _ hn _ _ c hc
  · intro c hc
    exact (allocChunk_allocated_nodup dfSorted.cols facultyCols facultyCols.dedup c
      (List.nodup_dedup facultyCols)).1

/-- C6: the defensive empty-`available` branch is unreachable — with
distinct faculty columns, every emitted record carries an assignment;
and were a student ever processed against an empty set, the engine
would leave the student unassigned rather than fail. -/
theorem c6_empty_available_unreachable (dfSorted : DF) (facultyCols : List String)
    (recs : List AllocRecord) (h : facultyCols ≠ []) (hnd : facultyCols.Nodup)
    (hok : allocate_rounds dfSorted facultyCols = Except.ok recs) :
    (∀ rec ∈ recs, rec.allocated ≠ none) ∧
    (∀ row : Row, pickAssigned dfSorted.cols facultyCols [] row = none) := by
  have hn : 0 < facultyCols.length := List.length_pos.mpr h
  have hded : facultyCols.dedup = facultyCols := List.dedup_eq_self.mpr hnd
  rw [allocate_rounds_eq dfSorted facultyCols h] at hok
  injection hok with hok'
  constructor
  · intro rec hrec
    rw [← hok'] at hrec
    obtain ⟨l, hl, hrl⟩ := List.mem_flatten.mp hrec
    obtain ⟨c, hcmem, rfl⟩ := List.mem_map.mp hl
    have hlen := (chunksGo_mem_length _ hn _ _ c hcmem).1
    have hsub : facultyCols.dedup ⊆ facultyCols := fun x hx => by
      rw [hded] at hx
      exact hx
    have hlen2 : c.length ≤ facultyCols.dedup.length := by
      rw [hded]
      exact hlen
    exact Option.isSome_iff_ne_none.mp
      (allocChunk_assigned_isSome dfSorted.cols facultyCols facultyCols.dedup c
        hsub hlen2 rec hrl)
  · intro row
    exact pickAssigned_empty _ _ _

/-- C1: a student processed against a non-empty available set drawn
from the faculty columns always receives an assignment; the assigned
faculty is an available faculty column, and either it carries the
smallest preference rank in `1..n` among the student's available ranked
faculties, or no available ranked faculty exists (preferences taken or
malformed) and the assignment is the positionally first still-available
faculty column. -/
theorem c1_highest_preference_or_fallback (cols facultyCols available : List String)
    (row : Row) (hav : available ≠ []) (hsub : available ⊆ facultyCols) :
    ∃ f, pickAssigned cols facultyCols available row = some f ∧
      f ∈ available ∧ f ∈ facultyCols ∧
      ((∃ r : ℕ, 1 ≤ r ∧ r ≤ facultyCols.length ∧
          toInt (cellAt cols row f) = some ((r : ℤ)) ∧
          (∀ r' : ℕ, 1 ≤ r' → r' ≤ facultyCols.length →
            (∃ g ∈ facultyCols, g ∈ available ∧
              toInt (cellAt cols row g) = some ((r' : ℤ))) → r ≤ r')) ∨
       ((∀ r' : ℕ, 1 ≤ r' → r' ≤ facultyCols.length →
          ¬∃ g ∈ facultyCols, g ∈ available ∧
            toInt (cellAt cols row g) = some ((r' : ℤ))) ∧
        ∃ l₁ l₂, facultyCols = l₁ ++ f :: l₂ ∧ ∀ g ∈ l₁, g ∉ available)) := by
  obtain ⟨f, hpick⟩ := @pickAssigned_isSome cols facultyCols available row hav hsub
  obtain ⟨hfav, hffcs⟩ := pickAssigned_mem hpick
  refine ⟨f, hpick, hfav, hffcs, ?_⟩
  have hp := hpick
  unfold pickAssigned at hp
  cases hscan : scanRanks cols facultyCols available row facultyCols.length with
  | some g =>
      rw [hscan] at hp
      cases hp
      left
      unfold scanRanks at hscan
      obtain ⟨r, hr1, hr2, hfr, hmin⟩ := findSome?_range'_min hscan
      have hpred := List.find?_some hfr
      simp only [Bool.and_eq_true, decide_eq_true_eq] at hpred
      refine ⟨r, hr1, by omega, hpred.1, ?_⟩
      rintro r' h1 h2 ⟨g', hg'fcs, hg'av, hg'r⟩
      by_contra hlt
      push_neg at hlt
      have hnone := hmin r' h1 hlt
      rw [List.find?_eq_none] at hnone
      have hng := hnone g' hg'fcs
      simp only [Bool.and_eq_true, decide_eq_true_eq, not_and] at hng
      exact hng hg'r (by simpa using hg'av)
  | none =>
      rw [hscan] at hp
      right
      constructor
      · rintro r' h1 h2 ⟨g', hg'fcs, hg'av, hg'r⟩
        unfold scanRanks at hscan
        rw [List.findSome?_eq_none_iff] at hscan
        have hmem : r' ∈ List.range' 1 facultyCols.length := by
          rw [List.mem_range']
          exact ⟨r' - 1, by omega, by omega⟩
        have hnone := hscan r' hmem
        rw [List.find?_eq_none] at hnone
        have hng := hnone g' hg'fcs
        simp only [Bool.and_eq_true, decide_eq_true_eq, not_and] at hng
        exact hng hg'r (by simpa using hg'av)
      · have he : available.isEmpty = false := by
          simp [List.isEmpty_iff, hav]
        have hp2 : (if available.isEmpty = true then none
            else facultyCols.find? (fun fac => available.contains fac)) = some f := hp
        rw [if_neg (by rw [he]; simp)] at hp2
        rw [List.find?_eq_some] at hp2
        obtain ⟨hpf, as, bs, heq, hall⟩ := hp2
        refine ⟨as, bs, heq, ?_⟩
        intro g hg hgav
        have hng := hall g hg
        simp only [Bool.not_eq_eq_eq_not, Bool.not_true] at hng
        rw [List.contains_eq_any_beq] at hng
        simp at hng
        exact hng g hgav rfl

/-- C3: a merit cell failing numeric coercion becomes the NaN sentinel
(sorted as lowest/missing, not an error); the processed rows are a
permutation of the input rows in the strict order (merit descending
with NaN last, original input position ascending); and that order is
the unique such arrangement — fully deterministic even among exact
merit ties. -/
theorem c3_sort_deterministic (df : DF) (c : String)
    (_hc : find_header_case_insensitive df.cols "CGPA" = some c)
    (hwf : df.WF) (horig : "_orig_index" ∉ df.cols) :
    (∀ cell : Cell, toNumeric cell = none → coerceCell cell = Cell.nan) ∧
    List.Perm (pipelineSorted df c).rows (pipelineDF df c).rows ∧
    (pipelineSorted df c).rows.Pairwise (fun a b =>
      rowBefore ((pipelineDF df c).cols.indexOf c)
        ((pipelineDF df c).cols.indexOf "_orig_index") a b = true) ∧
    ∀ l : List Row, List.Perm l (pipelineDF df c).rows →
      l.Pairwise (fun a b =>
        rowBefore ((pipelineDF df c).cols.indexOf c)
          ((pipelineDF df c).cols.indexOf "_orig_index") a b = true) →
      l = (pipelineSorted df c).rows := by
  have hpdf := pipelineDF_eq df c horig
  set ci := (pipelineDF df c).cols.indexOf c with hci
  set oi := (pipelineDF df c).cols.indexOf "_orig_index" with hoi
  have hoieq : oi = df.cols.length := by
    rw [hoi, hpdf]
    exact indexOf_append_self "_orig_index" df.cols horig
  have hlens : ∀ r ∈ (coerceMerit df c).rows, r.length = oi := by
    intro r hr
    rw [hoieq]
    exact coerceMerit_row_length df c hwf r hr
  have hrows : (pipelineDF df c).rows = appendIdxCells 0 (coerceMerit df c).rows := by
    rw [hpdf]
  have hdist : (pipelineDF df c).rows.Pairwise
      (fun a b => origKey oi a ≠ origKey oi b) := by
    rw [hrows]
    exact appendIdxCells_pairwise (coerceMerit df c).rows 0 hlens
  have hkeys : (pipelineDF df c).rows.Pairwise
      (fun a b => sortKey ci oi a ≠ sortKey ci oi b) :=
    hdist.imp (fun hne hkey => hne (sortKey_eq_origKey hkey))
  have hsortedrows : (pipelineSorted df c).rows =
      sortStudents ci oi (pipelineDF df c).rows := rfl
  have hperm : List.Perm (pipelineSorted df c).rows (pipelineDF df c).rows := by
    rw [hsortedrows]
    exact sortStudents_perm ci oi _
  have hkeys' : (pipelineSorted df c).rows.Pairwise
      (fun a b => sortKey ci oi a ≠ sortKey ci oi b) :=
    (hperm.pairwise_iff (fun h => Ne.symm h)).mpr hkeys
  have hstrict : (pipelineSorted df c).rows.Pairwise
      (fun a b => rowBefore ci oi a b = true) := by
    apply pairwise_strict_of_sorted _ hkeys'
    rw [hsortedrows]
    exact sortStudents_sorted ci oi _
  refine ⟨?_, hperm, hstrict, ?_⟩
  · intro cell hnone
    cases cell with
    | num q => simp [toNumeric] at hnone
    | str s => rfl
    | nan => rfl
  · intro l hlperm hlpair
    exact List.eq_of_perm_of_sorted (hlperm.trans hperm.symm) hlpair hstrict

theorem getD_replicate_zero : ∀ (n i : ℕ), (List.replicate n (0 : ℕ)).getD i 0 = 0 := by
  intro n
  induction n with
  | zero => intro i; simp
  | succ m ih =>
      intro i
      cases i with
      | zero => rfl
      | succ i' => simp only [List.replicate, List.getD_cons_succ, ih i']

theorem sum_replicate_zero : ∀ (n : ℕ), (List.replicate n (0 : ℕ)).sum = 0 := by
  intro n
  induction n with
  | zero => rfl
  | succ m ih => simp only [List.replicate, List.sum_cons, ih, Nat.add_zero, Nat.zero_add]

/-- C5: the tally for faculty `f` at position `p` (1 ≤ p ≤ n) counts
exactly the students whose cell for `f` parses to the integer `p`;
malformed, missing and out-of-range cells count nowhere and raise
nothing; and the row total for `f` counts exactly the students with
some valid rank in `1..n` for `f`. -/
theorem c5_tally_counts (df : DF) (fcs : List String) (f : String) (p : ℕ)
    (hnd : fcs.Nodup) (hf : f ∈ fcs) (hp1 : 1 ≤ p) (hpn : p ≤ fcs.length) :
    ∃ cs : List ℕ,
      (compute_fac_pref_counts df fcs).lookup f = some cs ∧
      cs.length = fcs.length ∧
      cs.getD (p - 1) 0 =
        df.rows.countP (fun row =>
          toInt (cellAt df.cols row f) == some ((p : ℤ))) ∧
      cs.sum = df.rows.countP (fun row =>
        match toInt (cellAt df.cols row f) with
        | some v => decide (1 ≤ v ∧ v ≤ (fcs.length : ℤ))
        | none => false) := by
  rw [compute_fac_pref_counts_closed df fcs hnd]
  refine ⟨_, lookup_map_self fcs f hf, ?_, ?_, ?_⟩
  · rw [foldl_updRow_length, List.length_replicate]
  · rw [foldl_updRow_getD df.cols fcs.length f p hp1 hpn df.rows _
      (List.length_replicate _ _), getD_replicate_zero]
    omega
  · rw [foldl_updRow_sum df.cols fcs.length f df.rows _
      (List.length_replicate _ _), sum_replicate_zero]
    omega

/-- C9 (amended): processing leaves identity and preference cells of
the input table unchanged; the modifications are the in-place numeric
coercion of the merit column (unparsable merit cells become the NaN
sentinel) and the appended engine-assigned original-order index
column. -/
theorem c9_frame_amended (df : DF) (c : String) (df' : DF)
    (alloc : List AllocRecord) (pref : List (String × List ℕ))
    (hwf : df.WF) (horig : "_orig_index" ∉ df.cols)
    (hc : find_header_case_insensitive df.cols "CGPA" = some c)
    (hok : process_dataframe df = Except.ok (df', alloc, pref)) :
    df'.cols = df.cols ++ ["_orig_index"] ∧
    df'.rows.length = df.rows.length ∧
    (∀ i j : ℕ, i < df.rows.length → j < df.cols.length → j ≠ df.cols.indexOf c →
      (df'.rows.getD i []).getD j Cell.nan = (df.rows.getD i []).getD j Cell.nan) ∧
    (∀ i : ℕ, i < df.rows.length →
      (df'.rows.getD i []).getD (df.cols.indexOf c) Cell.nan =
        coerceCell ((df.rows.getD i []).getD (df.cols.indexOf c) Cell.nan)) ∧
    (∀ i : ℕ, i < df.rows.length →
      (df'.rows.getD i []).getD df.cols.length Cell.nan = Cell.num i) := by
  have hfc : build_faculty_list df.cols c ≠ [] := by
    intro hemp
    rw [process_dataframe_error_nofac df c hc hemp] at hok
    cases hok
  rw [process_dataframe_eq df c hc hfc] at hok
  injection hok with hok'
  injection hok' with hA hBC
  cases hA
  have hpdf := pipelineDF_eq df c horig
  have hrowseq : (pipelineDF df c).rows = appendIdxCells 0 (coerceMerit df c).rows := by
    rw [hpdf]
  have hcmlen : (coerceMerit df c).rows.length = df.rows.length := by
    simp [coerceMerit]
  have hrlen : ∀ i : ℕ, i < df.rows.length →
      (df.rows.getD i []).length = df.cols.length := by
    intro i hi
    refine hwf _ ?_
    rw [List.getD_eq_getElem _ _ hi]
    exact List.getElem_mem _
  have hcell : ∀ i : ℕ, i < df.rows.length →
      (pipelineDF df c).rows.getD i [] =
        (df.rows.getD i []).set (df.cols.indexOf c)
          (coerceCell ((df.rows.getD i []).getD (df.cols.indexOf c) Cell.nan)) ++
          [Cell.num (i : ℚ)] := by
    intro i hi
    rw [hrowseq, appendIdxCells_getD, if_pos (by rw [hcmlen]; exact hi),
      coerceMerit_getD df c hi]
    have h0 : (0 + i : ℕ) = i := by omega
    rw [h0]
  have hslen : ∀ i : ℕ, i < df.rows.length →
      ((df.rows.getD i []).set (df.cols.indexOf c)
        (coerceCell ((df.rows.getD i []).getD (df.cols.indexOf c) Cell.nan))).length =
        df.cols.length := by
    intro i hi
    rw [List.length_set, hrlen i hi]
  refine ⟨by rw [hpdf], pipelineDF_rows_length df c, ?_, ?_, ?_⟩
  · intro i j hi hj hne
    rw [hcell i hi, List.getD_append _ _ _ _ (by rw [hslen i hi]; exact hj),
      getD_set]
    rw [if_neg (fun hcond => hne hcond.1.symm)]
  · intro i hi
    have hcmem : c ∈ df.cols := List.mem_of_find?_eq_some hc
    have hidx : df.cols.indexOf c < df.cols.length :=
      List.indexOf_lt_length.mpr hcmem
    rw [hcell i hi, List.getD_append _ _ _ _ (by rw [hslen i hi]; exact hidx),
      getD_set, if_pos ⟨rfl, by rw [hrlen i hi]; exact hidx⟩]
  · intro i hi
    rw [hcell i hi,
      show df.cols.length = ((df.rows.getD i []).set (df.cols.indexOf c)
        (coerceCell ((df.rows.getD i []).getD (df.cols.indexOf c) Cell.nan))).length
        from (hslen i hi).symm,
      getD_append_length]

/-- C10: a table whose merit column and faculty columns pass the schema
checks is processed successfully even when Roll, Name or Email are
absent; each missing identity field is rendered as the empty string in
every output record. -/
theorem c10_missing_identity_columns (df : DF) (c : String)
    (hc : find_header_case_insensitive df.cols "CGPA" = some c)
    (hfc : build_faculty_list df.cols c ≠ []) :
    ∃ df' alloc pref, process_dataframe df = Except.ok (df', alloc, pref) ∧
      ∀ rec ∈ alloc,
        (find_header_case_insensitive df.cols "Roll" = none →
          rec.roll = Cell.str "") ∧
        (find_header_case_insensitive df.cols "Name" = none →
          rec.name = Cell.str "") ∧
        (find_header_case_insensitive df.cols "Email" = none →
          rec.email = Cell.str "") := by
  refine ⟨_, _, _, process_dataframe_eq df c hc hfc, ?_⟩
  intro rec hrec
  obtain ⟨l, hl, hrl⟩ := List.mem_flatten.mp hrec
  obtain ⟨ch, hchmem, rfl⟩ := List.mem_map.mp hl
  obtain ⟨row, a, rfl⟩ := allocChunk_mem_mkRecord _ _ _ ch _ hrl
  have hkey : ∀ t : String, find_header_case_insensitive df.cols t = none →
      (normHeader "_orig_index" == normHeader t) = false →
      find_header_case_insensitive (pipelineSorted df c).cols t = none := by
    intro t ht htne
    show find_header_case_insensitive (pipelineDF df c).cols t = none
    rcases pipelineDF_cols df c with h | h
    · rw [h]; exact ht
    · rw [h]; exact find_header_append_orig df.cols t ht htne
  refine ⟨?_, ?_, ?_⟩
  · intro hroll
    show seriesGet (pipelineSorted df c).cols row "Roll" = Cell.str ""
    unfold seriesGet
    rw [hkey "Roll" hroll (by decide)]
  · intro hname
    show seriesGet (pipelineSorted df c).cols row "Name" = Cell.str ""
    unfold seriesGet
    rw [hkey "Name" hname (by decide)]
  · intro hemail
    show seriesGet (pipelineSorted df c).cols row "Email" = Cell.str ""
    unfold seriesGet
    rw [hkey "Email" hemail (by decide)]

/-! ### Concrete tables for evaluating the development -/

/-- Four students, two faculties (the specification's walk-through
scenario, with integral merit scores). -/
def W4 : DF :=
  { cols := ["Roll", "Name", "Email", "CGPA", "F1", "F2"]
    rows := [
      [Cell.str "r1", Cell.str "A", Cell.str "a@x", Cell.num 9, Cell.num 2, Cell.num 1],
      [Cell.str "r2", Cell.str "B", Cell.str "b@x", Cell.num 8, Cell.num 1, Cell.num 2],
      [Cell.str "r3", Cell.str "C", Cell.str "c@x", Cell.num 8, Cell.num 1, Cell.num 2],
      [Cell.str "r4", Cell.str "D", Cell.str "d@x", Cell.num 7, Cell.num 2, Cell.num 1]] }

/-- The post-processing state of `W4`. -/
def W4post : DF :=
  { cols := ["Roll", "Name", "Email", "CGPA", "F1", "F2", "_orig_index"]
    rows := [
      [Cell.str "r1", Cell.str "A", Cell.str "a@x", Cell.num 9, Cell.num 2, Cell.num 1,
        Cell.num 0],
      [Cell.str "r2", Cell.str "B", Cell.str "b@x", Cell.num 8, Cell.num 1, Cell.num 2,
        Cell.num 1],
      [Cell.str "r3", Cell.str "C", Cell.str "c@x", Cell.num 8, Cell.num 1, Cell.num 2,
        Cell.num 2],
      [Cell.str "r4", Cell.str "D", Cell.str "d@x", Cell.num 7, Cell.num 2, Cell.num 1,
        Cell.num 3]] }

/-- The allocation output for `W4`. -/
def W4alloc : List AllocRecord :=
  [{ roll := Cell.str "r1", name := Cell.str "A", email := Cell.str "a@x",
     cgpa := Cell.num 9, allocated := some "F2" },
   { roll := Cell.str "r2", name := Cell.str "B", email := Cell.str "b@x",
     cgpa := Cell.num 8, allocated := some "F1" },
   { roll := Cell.str "r3", name := Cell.str "C", email := Cell.str "c@x",
     cgpa := Cell.num 8, allocated := some "F1" },
   { roll := Cell.str "r4", name := Cell.str "D", email := Cell.str "d@x",
     cgpa := Cell.num 7, allocated := some "F2" }]

/-- The preference-count output for `W4`. -/
def W4pref : List (String × List ℕ) := [("F1", [2, 2]), ("F2", [2, 2])]

/-- One student, one faculty, no identity columns. -/
def WS : DF := { cols := ["CGPA", "F1"], rows := [[Cell.num 9, Cell.num 1]] }

/-- The allocation output for `WS`. -/
def WSrecs : List AllocRecord :=
  [{ roll := Cell.str "", name := Cell.str "", email := Cell.str "",
     cgpa := Cell.num 9, allocated := some "F1" }]

/-- One student whose merit cell is an unparsable string. -/
def WC9 : DF := { cols := ["CGPA", "F1"], rows := [[Cell.str "abc", Cell.num 1]] }

/-- The post-processing state of `WC9`: the merit cell has been coerced
to NaN in place. -/
def WC9post : DF :=
  { cols := ["CGPA", "F1", "_orig_index"]
    rows := [[Cell.nan, Cell.num 1, Cell.num 0]] }

/-- The allocation output for `WC9`. -/
def WC9alloc : List AllocRecord :=
  [{ roll := Cell.str "", name := Cell.str "", email := Cell.str "",
     cgpa := Cell.nan, allocated := some "F1" }]

/-- The preference-count output for `WC9`. -/
def WC9pref : List (String × List ℕ) := [("F1", [1])]

/-! ### Witnesses and counterexample -/

theorem c1_highest_preference_or_fallback_witness :
    ∃ f, pickAssigned ["CGPA", "F1"] ["F1"] ["F1"] [Cell.num 9, Cell.num 1] = some f ∧
      f ∈ ["F1"] ∧ f ∈ ["F1"] ∧
      ((∃ r : ℕ, 1 ≤ r ∧ r ≤ (["F1"] : List String).length ∧
          toInt (cellAt ["CGPA", "F1"] [Cell.num 9, Cell.num 1] f) = some ((r : ℤ)) ∧
          (∀ r' : ℕ, 1 ≤ r' → r' ≤ (["F1"] : List String).length →
            (∃ g ∈ ["F1"], g ∈ ["F1"] ∧
              toInt (cellAt ["CGPA", "F1"] [Cell.num 9, Cell.num 1] g) =
                some ((r' : ℤ))) → r ≤ r')) ∨
       ((∀ r' : ℕ, 1 ≤ r' → r' ≤ (["F1"] : List String).length →
          ¬∃ g ∈ ["F1"], g ∈ ["F1"] ∧
            toInt (cellAt ["CGPA", "F1"] [Cell.num 9, Cell.num 1] g) =
              some ((r' : ℤ))) ∧
        ∃ l₁ l₂, ["F1"] = l₁ ++ f :: l₂ ∧ ∀ g ∈ l₁, g ∉ ["F1"])) :=
  c1_highest_preference_or_fallback ["CGPA", "F1"] ["F1"] ["F1"]
    [Cell.num 9, Cell.num 1] (by decide) (fun x hx => hx)

theorem c2_rounds_partial_injection_witness :
    (chunksOf (["F1"] : List String).length WS.rows).flatten = WS.rows ∧
    (∀ c ∈ (chunksOf (["F1"] : List String).length WS.rows).dropLast,
      c.length = (["F1"] : List String).length) ∧
    (∀ c ∈ chunksOf (["F1"] : List String).length WS.rows,
      c.length ≤ (["F1"] : List String).length ∧ c ≠ []) ∧
    WSrecs = ((chunksOf (["F1"] : List String).length WS.rows).map
      (allocChunk WS.cols ["F1"] (["F1"] : List String).dedup)).flatten ∧
    (∀ c ∈ chunksOf (["F1"] : List String).length WS.rows,
      ((allocChunk WS.cols ["F1"] (["F1"] : List String).dedup c).filterMap
        AllocRecord.allocated).Nodup) :=
  c2_rounds_partial_injection WS ["F1"] WSrecs (by decide) (by rfl)

theorem c3_sort_deterministic_witness :
    (∀ cell : Cell, toNumeric cell = none → coerceCell cell = Cell.nan) ∧
    List.Perm (pipelineSorted W4 "CGPA").rows (pipelineDF W4 "CGPA").rows ∧
    (pipelineSorted W4 "CGPA").rows.Pairwise (fun a b =>
      rowBefore ((pipelineDF W4 "CGPA").cols.indexOf "CGPA")
        ((pipelineDF W4 "CGPA").cols.indexOf "_orig_index") a b = true) ∧
    ∀ l : List Row, List.Perm l (pipelineDF W4 "CGPA").rows →
      l.Pairwise (fun a b =>
        rowBefore ((pipelineDF W4 "CGPA").cols.indexOf "CGPA")
          ((pipelineDF W4 "CGPA").cols.indexOf "_orig_index") a b = true) →
      l = (pipelineSorted W4 "CGPA").rows :=
  c3_sort_deterministic W4 "CGPA" (by rfl) (by unfold DF.WF; decide) (by decide)

theorem c4_output_row_count_witness : W4alloc.length = W4.rows.length :=
  c4_output_row_count W4 W4post W4alloc W4pref (by rfl)

theorem c5_tally_counts_witness :
    ∃ cs : List ℕ,
      (compute_fac_pref_counts W4 ["F1", "F2"]).lookup "F1" = some cs ∧
      cs.length = (["F1", "F2"] : List String).length ∧
      cs.getD 0 0 =
        W4.rows.countP (fun row =>
          toInt (cellAt W4.cols row "F1") == some (1 : ℤ)) ∧
      cs.sum = W4.rows.countP (fun row =>
        match toInt (cellAt W4.cols row "F1") with
        | some v => decide (1 ≤ v ∧ v ≤ (((["F1", "F2"] : List String).length : ℕ) : ℤ))
        | none => false) :=
  c5_tally_counts W4 ["F1", "F2"] "F1" 1 (by decide) (by decide) (by decide) (by decide)

theorem c6_empty_available_unreachable_witness :
    (∀ rec ∈ WSrecs, rec.allocated ≠ none) ∧
    (∀ row : Row, pickAssigned WS.cols ["F1"] [] row = none) :=
  c6_empty_available_unreachable WS ["F1"] WSrecs (by decide) (by decide) (by rfl)

theorem c8_deterministic_pipeline_witness :
    process_dataframe W4 = process_dataframe W4 :=
  c8_deterministic_pipeline W4 W4 rfl

/-- The claim "StudentRecord is immutable after being read; the only
modification is the engine-assigned original order index" fails on the
code: `process_dataframe` coerces the merit column in place, so the
unparsable merit cell `"abc"` of the input table has become NaN in the
processed table state. -/
theorem c9_immutability_counterexample :
    process_dataframe WC9 = Except.ok (WC9post, WC9alloc, WC9pref) ∧
    (WC9.rows.getD 0 []).getD 0 Cell.nan = Cell.str "abc" ∧
    (WC9post.rows.getD 0 []).getD 0 Cell.nan = Cell.nan ∧
    Cell.nan ≠ Cell.str "abc" :=
  ⟨rfl, rfl, rfl, by decide⟩

theorem c9_frame_amended_witness :
    WC9post.cols = WC9.cols ++ ["_orig_index"] ∧
    WC9post.rows.length = WC9.rows.length ∧
    (∀ i j : ℕ, i < WC9.rows.length → j < WC9.cols.length →
      j ≠ WC9.cols.indexOf "CGPA" →
      (WC9post.rows.getD i []).getD j Cell.nan =
        (WC9.rows.getD i []).getD j Cell.nan) ∧
    (∀ i : ℕ, i < WC9.rows.length →
      (WC9post.rows.getD i []).getD (WC9.cols.indexOf "CGPA") Cell.nan =
        coerceCell ((WC9.rows.getD i []).getD (WC9.cols.indexOf "CGPA") Cell.nan)) ∧
    (∀ i : ℕ, i < WC9.rows.length →
      (WC9post.rows.getD i []).getD WC9.cols.length Cell.nan = Cell.num i) :=
  c9_frame_amended WC9 "CGPA" WC9post WC9alloc WC9pref
    (by unfold DF.WF; decide) (by decide) (by rfl) (by rfl)

theorem c10_missing_identity_columns_witness :
    ∃ df' alloc pref, process_dataframe WS = Except.ok (df', alloc, pref) ∧
      ∀ rec ∈ alloc,
        (find_header_case_insensitive WS.cols "Roll" = none →
          rec.roll = Cell.str "") ∧
        (find_header_case_insensitive WS.cols "Name" = none →
          rec.name = Cell.str "") ∧
        (find_header_case_insensitive WS.cols "Email" = none →
          rec.email = Cell.str "") :=
  c10_missing_identity_columns WS "CGPA" (by rfl) (by decide)
